import Mathlib

/-!
Verification development for the pdfs-api PDF layer-segmentation core.

This file gives a shallow embedding of the layer-segmentation and
selective-rendering pipeline of the repository:

  * `src/models/domain/enums.py`      → `PDFObjectType`, `ProcessingStatus`
  * `src/models/domain/pdf_object.py` → `PDFObject` with `width`, `height`,
    `area`, `is_zero_area`
  * `src/models/domain/layer.py`      → `Layer`, `Layer.add_object`
  * `src/models/domain/page.py`       → `Page`
  * `src/models/domain/document.py`   → `Document`
  * `src/pdf_processor/page.py`       → `TYPE_NAMES`, `make_object`,
    `group_by_z_index`, `process_page`, `extract_pages`
  * `src/pdf_processor/render.py`     → `create_layer`, `render_pages`
  * `src/pdf_processor/process.py`    → `process_pdf`

Coordinates are embedded as rationals (the Python floats are treated as
exact real-valued quantities).  The pypdfium2 provider is abstracted: a
page is a list of `RawObject`s (native integer type tag, bounding box from
`get_pos()`, and the text bounded by the box), and rasterization is an
oracle (`RenderOracle`) that may succeed or fail per call, which is exactly
the interface `render_pages` consumes.  Python dictionaries
(`z_index_groups`, `layers`) preserve insertion order, so they are embedded
as association lists with append-at-end semantics (`appendGroup`).

The reference (spec-side) description of segmentation — filter out the
degenerate primitives, chunk the remaining ones into maximal runs of equal
native tag, number the runs from 1 — is built from `chunksBy`/`refSeg` and
proved equal to the fold performed by `group_by_z_index`.
-/

set_option maxRecDepth 10000

namespace PdfsApi

/-- PDFObjectType from `src/models/domain/enums.py` (a closed str-enum). -/
inductive PDFObjectType where
  | TEXT
  | PATH
  | IMAGE
  | SHADE
  | FORM
  | UNKNOWN
  deriving DecidableEq, Repr, Inhabited

/-- String value of each enum member (the str-enum payload in `enums.py`). -/
def typeValue : PDFObjectType → String
  | PDFObjectType.TEXT => "text"
  | PDFObjectType.PATH => "path"
  | PDFObjectType.IMAGE => "image"
  | PDFObjectType.SHADE => "shade"
  | PDFObjectType.FORM => "form"
  | PDFObjectType.UNKNOWN => "unknown"

/-- ProcessingStatus from `src/models/domain/enums.py`. -/
inductive ProcessingStatus where
  | processing
  | completed
  | failed
  deriving DecidableEq, Repr, Inhabited

/-- DocumentSource from `src/models/domain/document.py`. -/
inductive DocumentSource where
  | file
  | url
  deriving DecidableEq, Repr, Inhabited

/-- A bounding box `(x1, y1, x2, y2)` in page units, as returned by
pypdfium2's `obj.get_pos()` (there `(bx, by, tx, ty)`). -/
structure BBox where
  x1 : ℚ
  y1 : ℚ
  x2 : ℚ
  y2 : ℚ
  deriving DecidableEq, Repr, Inhabited

/-- A raw drawable primitive as enumerated by `page.get_objects()`:
its native integer type tag (`obj.type`), its bounding box
(`obj.get_pos()`), and the text of the page bounded by that box
(what `get_textpage().get_text_bounded(*boundary)` returns). -/
structure RawObject where
  tag : Nat
  bbox : BBox
  text : String
  deriving DecidableEq, Repr, Inhabited

/-- PDFObject from `src/models/domain/pdf_object.py`. -/
structure PDFObject where
  id : Nat
  type : PDFObjectType
  bbox : BBox
  z_index : Option Nat
  content : Option String
  deriving DecidableEq, Repr, Inhabited

/-- Property `PDFObject.width`: `bbox[2] - bbox[0]`. -/
def PDFObject.width (o : PDFObject) : ℚ := o.bbox.x2 - o.bbox.x1

/-- Property `PDFObject.height`: `bbox[3] - bbox[1]`. -/
def PDFObject.height (o : PDFObject) : ℚ := o.bbox.y2 - o.bbox.y1

/-- Property `PDFObject.area`: `width * height`. -/
def PDFObject.area (o : PDFObject) : ℚ := o.width * o.height

/-- Property `PDFObject.is_zero_area`: `self.area <= 0.0001`. -/
def PDFObject.is_zero_area (o : PDFObject) : Bool := decide (o.area ≤ 0.0001)

/-- Property `PDFObject.position`: top-left `(bbox[0], bbox[1])`. -/
def PDFObject.position (o : PDFObject) : ℚ × ℚ := (o.bbox.x1, o.bbox.y1)

/-- Layer from `src/models/domain/layer.py`. -/
structure Layer where
  z_index : Nat
  type : PDFObjectType
  objects : List PDFObject
  deriving DecidableEq, Repr, Inhabited

/-- Method `Layer.add_object`: raises `ValueError` (here: returns the
unchanged layer together with the error message) when the object's type
differs from the layer's type, otherwise appends the object. -/
def Layer.add_object (l : Layer) (obj : PDFObject) : Layer × Option String :=
  if obj.type ≠ l.type then
    (l, some ("Cannot add " ++ typeValue obj.type ++ " object to layer of type "
        ++ typeValue l.type))
  else
    ({ l with objects := l.objects ++ [obj] }, none)

/-- Property `Layer.object_count`. -/
def Layer.object_count (l : Layer) : Nat := l.objects.length

/-- Page from `src/models/domain/page.py`.  The `layers` dictionary is an
insertion-ordered association list keyed by z-index. -/
structure Page where
  number : Nat
  width : ℚ
  height : ℚ
  rotation : Nat
  mediabox : Option BBox
  cropbox : Option BBox
  bleedbox : Option BBox
  trimbox : Option BBox
  artbox : Option BBox
  bbox : Option BBox
  layers : List (Nat × Layer)
  zero_area_objects : List PDFObject
  deriving DecidableEq, Repr, Inhabited

/-- Document from `src/models/domain/document.py`, together with the three
attributes `process_pdf` populates through `model_copy(update=...)`
(`page_count`, the processed `pages` list, and the `info` metadata map;
in pydantic the copy carries them as instance data, and `page_count`
observably equals the length of the updated pages list). -/
structure Document where
  id : String
  user_id : String
  name : String
  source : DocumentSource
  source_url : Option String
  status : ProcessingStatus
  uploaded : String
  page_count : Nat
  pages : List Page
  info : List (String × String)
  deriving DecidableEq, Repr, Inhabited

/-- TYPE_NAMES from `src/pdf_processor/page.py`: the fixed table from
native pdfium type tags to domain kinds; `TYPE_NAMES.get(obj.type,
PDFObjectType.UNKNOWN)` sends every unrecognized tag to `UNKNOWN`. -/
def TYPE_NAMES (tag : Nat) : PDFObjectType :=
  if tag = 1 then PDFObjectType.TEXT
  else if tag = 2 then PDFObjectType.PATH
  else if tag = 3 then PDFObjectType.IMAGE
  else if tag = 4 then PDFObjectType.SHADE
  else if tag = 5 then PDFObjectType.FORM
  else PDFObjectType.UNKNOWN

/-- The degeneracy test inlined in `group_by_z_index`:
`(tx - bx) < 0.0001 or (ty - by) < 0.0001` on `obj.get_pos()`. -/
def seg_degenerate (b : BBox) : Bool :=
  decide (b.x2 - b.x1 < 0.0001) || decide (b.y2 - b.y1 < 0.0001)

/-- make_object from `src/pdf_processor/page.py`: builds the domain
`PDFObject` for index `i` and z-index `z`; text content (truncated to 64
characters) only for TEXT-kind objects. -/
def make_object (i : Nat) (z : Option Nat) (o : RawObject) : PDFObject :=
  { id := i
    type := TYPE_NAMES o.tag
    bbox := o.bbox
    z_index := z
    content :=
      if TYPE_NAMES o.tag = PDFObjectType.TEXT then some (o.text.take 64) else none }

/-- The loop state of `group_by_z_index`: the running counter `z_index`,
the previous native tag `prev_type` (initially Python `None`), the
insertion-ordered groups dictionary, and the zero-area list. -/
structure SegState where
  z_index : Nat
  prev_type : Option Nat
  groups : List (Nat × List PDFObject)
  zero_area : List PDFObject
  deriving Repr

/-- Embedding of `z_index_groups.setdefault(z, []).append(o)` on an
insertion-ordered dictionary: append to the entry with key `z` if present,
otherwise add a new entry at the end. -/
def appendGroup : List (Nat × List PDFObject) → Nat → PDFObject → List (Nat × List PDFObject)
  | [], z, o => [(z, [o])]
  | (k, os) :: rest, z, o =>
    if k = z then (k, os ++ [o]) :: rest else (k, os) :: appendGroup rest z o

/-- One iteration of the `for i, obj in enumerate(page.get_objects())`
loop of `group_by_z_index`: zero-area objects are set aside; otherwise the
counter advances iff the native tag differs from `prev_type`. -/
def segStep (s : SegState) (io : Nat × RawObject) : SegState :=
  if seg_degenerate io.2.bbox then
    { s with zero_area := s.zero_area ++ [make_object io.1 none io.2] }
  else
    let z := if some io.2.tag ≠ s.prev_type then s.z_index + 1 else s.z_index
    { z_index := z
      prev_type := some io.2.tag
      groups := appendGroup s.groups z (make_object io.1 (some z) io.2)
      zero_area := s.zero_area }

/-- The final loop state of `group_by_z_index` on a primitive list:
`z_index = 0`, `prev_type = None` and empty collections initially. -/
def segFold (objs : List RawObject) : SegState :=
  objs.enum.foldl segStep { z_index := 0, prev_type := none, groups := [], zero_area := [] }

/-- One entry of the comprehension
`{z: Layer(z_index=z, type=objects[0].type, objects=objects) for z, objects
in z_index_groups.items() if objects}`. -/
def mkLayerEntry (p : Nat × List PDFObject) : Option (Nat × Layer) :=
  match p.2 with
  | [] => none
  | o :: _ => some (p.1, { z_index := p.1, type := o.type, objects := p.2 })

/-- group_by_z_index from `src/pdf_processor/page.py`: fold the loop over
the enumerated primitives, then turn each non-empty group into a `Layer`
whose type is its first member's type. -/
def group_by_z_index (objs : List RawObject) : List (Nat × Layer) × List PDFObject :=
  ((segFold objs).groups.filterMap mkLayerEntry, (segFold objs).zero_area)

/-- Native tag of an enumerated primitive. -/
def tagOf (io : Nat × RawObject) : Nat := io.2.tag

/-- Reference chunking step: append `x` to the last chunk when its last
element carries the same native tag, otherwise start a new chunk. -/
def chunkPush : List (List (Nat × RawObject)) → (Nat × RawObject) → List (List (Nat × RawObject))
  | [], x => [[x]]
  | [c], x =>
    if c.getLast?.map tagOf = some (tagOf x) then [c ++ [x]] else [c, [x]]
  | c :: c₂ :: cs, x => c :: chunkPush (c₂ :: cs) x

/-- Reference description of the runs of the segmentation: maximal runs of
constant native tag, built left to right. -/
def chunksBy (l : List (Nat × RawObject)) : List (List (Nat × RawObject)) :=
  l.foldl chunkPush []

/-- The enumerated non-degenerate primitives of a page. -/
def ndEnum (objs : List RawObject) : List (Nat × RawObject) :=
  objs.enum.filter fun io => !seg_degenerate io.2.bbox

/-- The enumerated degenerate primitives of a page. -/
def degEnum (objs : List RawObject) : List (Nat × RawObject) :=
  objs.enum.filter fun io => seg_degenerate io.2.bbox

/-- Domain objects of one chunk, all carrying z-index `z`. -/
def chunkObjs (z : Nat) (c : List (Nat × RawObject)) : List PDFObject :=
  c.map fun io => make_object io.1 (some z) io.2

/-- The layer built from one chunk (type taken from the first member). -/
def chunkLayer (z : Nat) (c : List (Nat × RawObject)) : Layer :=
  { z_index := z
    type := TYPE_NAMES c.headI.2.tag
    objects := chunkObjs z c }

/-- The groups dictionary corresponding to a chunk list: chunk number `j`
(0-based) becomes the entry with key `j + 1`. -/
def groupsOfChunks (cs : List (List (Nat × RawObject))) : List (Nat × List PDFObject) :=
  cs.enum.map fun jc => (jc.1 + 1, chunkObjs (jc.1 + 1) jc.2)

/-- The native tag of the most recent non-degenerate primitive: the last
element of the last chunk. -/
def lastTagOf (cs : List (List (Nat × RawObject))) : Option Nat :=
  (cs.getLast?.bind List.getLast?).map tagOf

/-- The loop state corresponds to a chunk list and a degenerate list. -/
def Models (s : SegState) (cs : List (List (Nat × RawObject)))
    (ds : List (Nat × RawObject)) : Prop :=
  s.z_index = cs.length ∧
  s.prev_type = lastTagOf cs ∧
  s.groups = groupsOfChunks cs ∧
  s.zero_area = ds.map fun io => make_object io.1 none io.2

/-- Chunks are never empty. -/
def ChunksWF (cs : List (List (Nat × RawObject))) : Prop :=
  ∀ c ∈ cs, c ≠ []

/-- Reference step mirroring `segStep` on the (chunks, degenerates) pair. -/
def refStep (acc : List (List (Nat × RawObject)) × List (Nat × RawObject))
    (io : Nat × RawObject) : List (List (Nat × RawObject)) × List (Nat × RawObject) :=
  if seg_degenerate io.2.bbox then (acc.1, acc.2 ++ [io])
  else (chunkPush acc.1 io, acc.2)

/-- Reference (spec-side) result of segmentation: filter, chunk by native
tag, number the chunks from 1; degenerate primitives keep page order and
get no z-index. -/
def refSeg (objs : List RawObject) : List (Nat × Layer) × List PDFObject :=
  ((chunksBy (ndEnum objs)).enum.map fun jc => (jc.1 + 1, chunkLayer (jc.1 + 1) jc.2),
   (degEnum objs).map fun io => make_object io.1 none io.2)

/-- Decidable test that the classified kinds of adjacent primitives all
differ (spec Scenario E's strictly alternating page). -/
def kindsAlternate : List RawObject → Bool
  | [] => true
  | [_] => true
  | a :: b :: rest =>
    decide (TYPE_NAMES a.tag ≠ TYPE_NAMES b.tag) && kindsAlternate (b :: rest)

/-- The identity-free part of a domain object (everything but the
`sequence_id`). -/
def objShape (o : PDFObject) : PDFObjectType × BBox × Option Nat × Option String :=
  (o.type, o.bbox, o.z_index, o.content)

/-- The identity-free part of a keyed layer. -/
def layerShape (p : Nat × Layer) :
    Nat × PDFObjectType × List (PDFObjectType × BBox × Option Nat × Option String) :=
  (p.1, p.2.type, p.2.objects.map objShape)

/-- The identity-free domain object a raw primitive produces at z `z`. -/
def rawShape (z : Option Nat) (o : RawObject) :
    PDFObjectType × BBox × Option Nat × Option String :=
  objShape (make_object 0 z o)

/-- create_layer from `src/pdf_processor/render.py`: raises `ValueError`
when `start > end`, otherwise removes `objs[:start] + objs[end+1:]` from
the disposable page copy, keeping exactly `objs[start:end+1]`. -/
def create_layer (objs : List RawObject) (start stop : Nat) : Except String (List RawObject) :=
  if start > stop then
    Except.error "Start index must be less than or equal to end index."
  else
    Except.ok ((objs.take (stop + 1)).drop start)

/-- Zero-padding to three digits, Python `f"{n:03d}"` for `n ≥ 0`. -/
def pad3 (n : Nat) : String :=
  let s := toString n
  if s.length < 3 then String.mk (List.replicate (3 - s.length) '0') ++ s else s

/-- One rasterization job of `render_pages`: the full page raster of page
`n` (1-based), or the raster of the layer with z-index `z` of page `n`
restricted to the id range `[start, stop]`. -/
inductive Job where
  | page (n : Nat)
  | layer (n : Nat) (z : Nat) (start stop : Nat)
  deriving DecidableEq, Repr

/-- The file each job writes, relative to the working directory. -/
def jobFile : Job → String
  | Job.page n => "pages/p" ++ pad3 n ++ "/page.png"
  | Job.layer n z _ _ => "pages/p" ++ pad3 n ++ "/l" ++ pad3 z ++ ".png"

/-- The jobs of one page, in program order: first `page.png`, then one job
per entry of the layers dictionary, invoked with
`layer.objects[0].id` and `layer.objects[-1].id` as the id range. -/
def pageJobs (p : Page) : List Job :=
  Job.page p.number ::
    p.layers.map fun zl =>
      Job.layer p.number zl.1 zl.2.objects.headI.id zl.2.objects.getLastI.id

/-- All jobs of `render_pages`, pages in order. -/
def jobList (pages : List Page) : List Job :=
  (pages.map pageJobs).flatten

/-- The pypdfium2 rasterization backend, abstracted: each render call
(keyed by 0-based page index, id range for layers, and scale) either
succeeds or raises. -/
structure RenderOracle where
  renderPage : Nat → ℚ → Except String Unit
  renderLayer : Nat → Nat → Nat → ℚ → Except String Unit

/-- Run one job: `render_page(file, page.number - 1, scale).save(...)` or
`render_layer(file, page.number - 1, start, stop, scale).save(...)`;
on success the written file is reported. -/
def runJob (R : RenderOracle) (scale : ℚ) : Job → Except String String
  | Job.page n => (R.renderPage (n - 1) scale).map fun _ => jobFile (Job.page n)
  | Job.layer n z s e => (R.renderLayer (n - 1) s e scale).map fun _ => jobFile (Job.layer n z s e)

/-- Run jobs in order; the first raised error aborts the remaining jobs
(Python exception propagation).  Returns the files written before the
error, and the error if one occurred. -/
def runJobs (R : RenderOracle) (scale : ℚ) : List Job → List String × Option String
  | [] => ([], none)
  | j :: rest =>
    match runJob R scale j with
    | Except.error e => ([], some e)
    | Except.ok f =>
      let r := runJobs R scale rest
      (f :: r.1, r.2)

/-- render_pages from `src/pdf_processor/render.py`: for every page, in
order, render and save `page.png`, then render and save each layer of the
page in dictionary order. -/
def render_pages (R : RenderOracle) (pages : List Page) (scale : ℚ) :
    List String × Option String :=
  runJobs R scale (jobList pages)

/-- A raw page: the geometry delivered by `get_page_meta` and the ordered
primitive list delivered by `page.get_objects()`. -/
structure RawPage where
  width : ℚ
  height : ℚ
  rotation : Nat
  mediabox : Option BBox
  cropbox : Option BBox
  bleedbox : Option BBox
  trimbox : Option BBox
  artbox : Option BBox
  bbox : Option BBox
  objects : List RawObject
  deriving DecidableEq, Repr, Inhabited

/-- process_page from `src/pdf_processor/page.py`: run the segmentation
and assemble the `Page` record for 1-based page number `num`. -/
def process_page (num : Nat) (p : RawPage) : Page :=
  let r := group_by_z_index p.objects
  { number := num
    width := p.width
    height := p.height
    rotation := p.rotation
    mediabox := p.mediabox
    cropbox := p.cropbox
    bleedbox := p.bleedbox
    trimbox := p.trimbox
    artbox := p.artbox
    bbox := p.bbox
    layers := r.1
    zero_area_objects := r.2 }

/-- extract_pages from `src/pdf_processor/page.py`:
`[process_page(i + 1, pdf[i]) for i in range(n_pages)]`. -/
def extract_pages (raws : List RawPage) : List Page :=
  raws.enum.map fun ip => process_page (ip.1 + 1) ip.2

/-- process_pdf from `src/pdf_processor/process.py`.  The source file
existence check and the metadata extraction are external inputs
(`file_exists`, `meta`); on success the function returns
`document.model_copy(update={"page_count": len(pages), "pages": pages,
"info": meta})`, embedded as a functional record update.  A render error
propagates (first component: the files already written). -/
def process_pdf (file_exists : Bool) (document : Document) (raws : List RawPage)
    (meta : List (String × String)) (R : RenderOracle) :
    List String × Except String Document :=
  if file_exists = false then
    ([], Except.error "File does not exist.")
  else
    let pages := extract_pages raws
    let r := render_pages R pages 1
    match r.2 with
    | some e => (r.1, Except.error e)
    | none =>
      (r.1, Except.ok { document with
        page_count := pages.length, pages := pages, info := meta })

/-- Whether one job's render call succeeds. -/
def jobOk (R : RenderOracle) (scale : ℚ) (j : Job) : Bool :=
  match runJob R scale j with
  | Except.ok _ => true
  | Except.error _ => false

/-- The error of a failed render call, if any. -/
def errOf : Except String String → Option String
  | Except.ok _ => none
  | Except.error e => some e

/-- Chunks are non-empty and each holds primitives of one native tag. -/
def UniformChunks (cs : List (List (Nat × RawObject))) : Prop :=
  ∀ c ∈ cs, c ≠ [] ∧ ∀ x ∈ c, ∀ y ∈ c, tagOf x = tagOf y

/-- Scenario fixture: a 10×10 text box at the origin. -/
def bbA : BBox := { x1 := 0, y1 := 0, x2 := 10, y2 := 10 }

/-- Scenario fixture: a second text box. -/
def bbB : BBox := { x1 := 1, y1 := 1, x2 := 11, y2 := 11 }

/-- Scenario fixture: a 5×5 path box. -/
def bbC : BBox := { x1 := 0, y1 := 0, x2 := 5, y2 := 5 }

/-- Scenario fixture: the degenerate box `[2, 2, 2, 2]` of Scenario B. -/
def bbDot : BBox := { x1 := 2, y1 := 2, x2 := 2, y2 := 2 }

/-- A box of width and height `0.01`: positive area `0.0001`. -/
def bbSmall : BBox := { x1 := 0, y1 := 0, x2 := 0.01, y2 := 0.01 }

/-- A TEXT primitive (native tag 1). -/
def objText1 : RawObject := { tag := 1, bbox := bbA, text := "hello" }

/-- A second TEXT primitive (native tag 1). -/
def objText2 : RawObject := { tag := 1, bbox := bbB, text := "world" }

/-- A PATH primitive (native tag 2). -/
def objPath1 : RawObject := { tag := 2, bbox := bbC, text := "" }

/-- A degenerate PATH primitive (zero-area box). -/
def objDegen : RawObject := { tag := 2, bbox := bbDot, text := "" }

/-- A non-degenerate primitive with unrecognized native tag 6. -/
def objTag6 : RawObject := { tag := 6, bbox := bbA, text := "" }

/-- A non-degenerate primitive with unrecognized native tag 7. -/
def objTag7 : RawObject := { tag := 7, bbox := bbB, text := "" }

/-- Scenario A's page: TEXT, TEXT, PATH. -/
def pageA : List RawObject := [objText1, objText2, objPath1]

/-- A raw page with the given primitives and fixed Letter geometry. -/
def mkRawPage (objs : List RawObject) : RawPage :=
  { width := 612, height := 792, rotation := 0, mediabox := none, cropbox := none,
    bleedbox := none, trimbox := none, artbox := none, bbox := none, objects := objs }

/-- An oracle whose render calls all succeed. -/
def okOracle : RenderOracle :=
  { renderPage := fun _ _ => Except.ok ()
    renderLayer := fun _ _ _ _ => Except.ok () }

/-- An oracle whose layer renders all fail while full-page renders
succeed. -/
def layerFailOracle : RenderOracle :=
  { renderPage := fun _ _ => Except.ok ()
    renderLayer := fun _ _ _ _ => Except.error "rasterization failed" }

/-- A fixture document record. -/
def doc0 : Document :=
  { id := "doc-1", user_id := "user-1", name := "sample.pdf",
    source := DocumentSource.file, source_url := none,
    status := ProcessingStatus.processing, uploaded := "2025-01-01T00:00:00Z",
    page_count := 0, pages := [], info := [] }

/-- A 0.01×0.01 domain object: positive area, exactly `0.0001`. -/
def objSmall : PDFObject :=
  { id := 0, type := PDFObjectType.PATH, bbox := bbSmall, z_index := some 1, content := none }

/-- Fixture metadata map. -/
def metaFixture : List (String × String) := [("version", "1.7")]

/-- Two raw pages with one TEXT primitive each. -/
def twoRawPages : List RawPage := [mkRawPage [objText1], mkRawPage [objText2]]

/-- A TEXT layer holding the first scenario primitive. -/
def layerT : Layer :=
  { z_index := 1, type := PDFObjectType.TEXT, objects := [make_object 0 (some 1) objText1] }

/-- A PATH domain object. -/
def objP : PDFObject := make_object 1 (some 1) objPath1

/-- A second TEXT domain object. -/
def objT2 : PDFObject := make_object 1 (some 1) objText2

/-- The document record produced for an empty page list. -/
def docResult : Document := { doc0 with page_count := 0, pages := [], info := metaFixture }

/-! Chunking lemmas: `chunksBy` splits a list into non-empty runs of
constant native tag, adjacent runs carrying different tags. -/

theorem chunkPush_concat (cs : List (List (Nat × RawObject))) (c : List (Nat × RawObject))
    (x : Nat × RawObject) :
    chunkPush (cs ++ [c]) x =
      if c.getLast?.map tagOf = some (tagOf x) then cs ++ [c ++ [x]] else cs ++ [c, [x]] := by
  induction cs with
  | nil => by_cases h : c.getLast?.map tagOf = some (tagOf x) <;> simp [chunkPush, h]
  | cons c₀ cs ih =>
    cases cs with
    | nil =>
      by_cases h : c.getLast?.map tagOf = some (tagOf x) <;> simp [chunkPush, h]
    | cons c₁ cs =>
      have hstep : chunkPush ((c₀ :: c₁ :: cs) ++ [c]) x
          = c₀ :: chunkPush ((c₁ :: cs) ++ [c]) x := rfl
      rw [hstep, ih]
      by_cases h : c.getLast?.map tagOf = some (tagOf x) <;> simp [h]

theorem chunksBy_snoc (l : List (Nat × RawObject)) (x : Nat × RawObject) :
    chunksBy (l ++ [x]) = chunkPush (chunksBy l) x := by
  simp [chunksBy, List.foldl_append]

theorem flatten_chunkPush (cs : List (List (Nat × RawObject))) (x : Nat × RawObject) :
    (chunkPush cs x).flatten = cs.flatten ++ [x] := by
  rcases List.eq_nil_or_concat cs with h | ⟨cs', c, h⟩
  · simp [h, chunkPush]
  · rw [List.concat_eq_append] at h
    rw [h, chunkPush_concat]
    by_cases hc : c.getLast?.map tagOf = some (tagOf x) <;> simp [hc]

theorem chunksBy_flatten (l : List (Nat × RawObject)) :
    (chunksBy l).flatten = l := by
  induction l using List.reverseRecOn with
  | nil => simp [chunksBy]
  | append_singleton l x ih => rw [chunksBy_snoc, flatten_chunkPush, ih]

theorem mem_of_getLast? {α : Type} {l : List α} {a : α} (h : l.getLast? = some a) :
    a ∈ l := by
  have hne : l ≠ [] := by
    intro h0
    subst h0
    simp at h
  rw [List.getLast?_eq_getLast l hne] at h
  injection h with h
  rw [← h]
  exact List.getLast_mem hne

theorem uniform_chunkPush (cs : List (List (Nat × RawObject))) (x : Nat × RawObject)
    (h : UniformChunks cs) : UniformChunks (chunkPush cs x) := by
  rcases List.eq_nil_or_concat cs with hn | ⟨cs', c, hc⟩
  · subst hn
    intro c hc
    simp [chunkPush] at hc
    subst hc
    simp
  · rw [List.concat_eq_append] at hc
    subst hc
    rw [chunkPush_concat]
    by_cases hlast : c.getLast?.map tagOf = some (tagOf x)
    · rw [if_pos hlast]
      intro d hd
      rcases List.mem_append.mp hd with hd | hd
      · exact h d (List.mem_append.mpr (Or.inl hd))
      · have hcmem : c ∈ cs' ++ [c] := List.mem_append.mpr (Or.inr (by simp))
        obtain ⟨hcne, hcuni⟩ := h c hcmem
        obtain ⟨yl, hyl, hylx⟩ := Option.map_eq_some'.mp hlast
        have hx : ∀ y ∈ c, tagOf y = tagOf x := fun y hy =>
          (hcuni y hy yl (mem_of_getLast? hyl)).trans hylx
        have hall : ∀ y ∈ c ++ [x], tagOf y = tagOf x := by
          intro y hy
          rcases List.mem_append.mp hy with hy | hy
          · exact hx y hy
          · simp at hy
            rw [hy]
        simp at hd
        subst hd
        refine ⟨by simp, fun a ha b hb => ?_⟩
        rw [hall a ha, hall b hb]
    · rw [if_neg hlast]
      intro d hd
      have : d ∈ (cs' ++ [c]) ++ [[x]] := by simpa using hd
      rcases List.mem_append.mp this with hd' | hd'
      · exact h d hd'
      · simp at hd'
        subst hd'
        refine ⟨by simp, by simp⟩

theorem chunksBy_uniform (l : List (Nat × RawObject)) :
    UniformChunks (chunksBy l) := by
  induction l using List.reverseRecOn with
  | nil =>
    intro c hc
    simp [chunksBy] at hc
  | append_singleton l x ih =>
    rw [chunksBy_snoc]
    exact uniform_chunkPush _ _ ih

theorem adj_chunkPush (cs : List (List (Nat × RawObject))) (x : Nat × RawObject)
    (hwf : UniformChunks cs)
    (h : List.Chain' (fun c d => c.getLast?.map tagOf ≠ d.head?.map tagOf) cs) :
    List.Chain' (fun c d => c.getLast?.map tagOf ≠ d.head?.map tagOf) (chunkPush cs x) := by
  rcases List.eq_nil_or_concat cs with hn | ⟨cs', c, hc⟩
  · subst hn
    simp [chunkPush]
  · rw [List.concat_eq_append] at hc
    subst hc
    rw [chunkPush_concat]
    have hcne : c ≠ [] := (hwf c (List.mem_append.mpr (Or.inr (by simp)))).1
    by_cases hlast : c.getLast?.map tagOf = some (tagOf x)
    · rw [if_pos hlast]
      rw [List.chain'_append] at h ⊢
      refine ⟨h.1, List.chain'_singleton _, ?_⟩
      intro a ha b hb
      simp at hb
      subst hb
      have : (c ++ [x]).head? = c.head? := by
        cases c with
        | nil => exact absurd rfl hcne
        | cons y ys => simp
      rw [this]
      exact h.2.2 a ha c (by simp)
    · rw [if_neg hlast]
      have : cs' ++ [c, [x]] = (cs' ++ [c]) ++ [[x]] := by simp
      rw [this, List.chain'_append]
      refine ⟨h, List.chain'_singleton _, ?_⟩
      intro a ha b hb
      simp at hb
      subst hb
      rw [List.getLast?_concat] at ha
      injection ha with ha
      subst ha
      simpa using hlast

theorem chunksBy_adjDiff (l : List (Nat × RawObject)) :
    List.Chain' (fun c d => c.getLast?.map tagOf ≠ d.head?.map tagOf) (chunksBy l) := by
  induction l using List.reverseRecOn with
  | nil => simp [chunksBy]
  | append_singleton l x ih =>
    rw [chunksBy_snoc]
    exact adj_chunkPush _ _ (chunksBy_uniform l) ih

theorem chunksBy_of_chain' (l : List (Nat × RawObject))
    (h : List.Chain' (fun a b => tagOf a ≠ tagOf b) l) :
    chunksBy l = l.map fun x => [x] := by
  induction l using List.reverseRecOn with
  | nil => simp [chunksBy]
  | append_singleton l x ih =>
    rw [chunksBy_snoc]
    have hl : List.Chain' (fun a b => tagOf a ≠ tagOf b) l := (List.chain'_append.mp h).1
    rw [ih hl]
    rcases List.eq_nil_or_concat l with hn | ⟨l', a, hl'⟩
    · subst hn
      simp [chunkPush]
    · rw [List.concat_eq_append] at hl'
      subst hl'
      have hbridge := (List.chain'_append.mp h).2.2
      have hax : tagOf a ≠ tagOf x :=
        hbridge a (by simp [List.getLast?_concat]) x (by simp)
      simp only [List.map_append, List.map_cons, List.map_nil]
      rw [chunkPush_concat, if_neg (by simpa using hax)]
      simp

/-! Lemmas on the ordered groups dictionary. -/

theorem appendGroup_of_not_mem (l : List (Nat × List PDFObject)) (z : Nat) (o : PDFObject)
    (h : ∀ p ∈ l, p.1 ≠ z) : appendGroup l z o = l ++ [(z, [o])] := by
  induction l with
  | nil => rfl
  | cons p l ih =>
    obtain ⟨k, os⟩ := p
    have hk : k ≠ z := h (k, os) (by simp)
    have hrest : ∀ p ∈ l, p.1 ≠ z := fun q hq => h q (by simp [hq])
    simp [appendGroup, hk, ih hrest]

theorem appendGroup_concat_key (l : List (Nat × List PDFObject)) (z : Nat)
    (os : List PDFObject) (o : PDFObject) (h : ∀ p ∈ l, p.1 ≠ z) :
    appendGroup (l ++ [(z, os)]) z o = l ++ [(z, os ++ [o])] := by
  induction l with
  | nil => simp [appendGroup]
  | cons p l ih =>
    obtain ⟨k, os₀⟩ := p
    have hk : k ≠ z := h (k, os₀) (by simp)
    have hrest : ∀ p ∈ l, p.1 ≠ z := fun q hq => h q (by simp [hq])
    simp [appendGroup, hk, ih hrest]

theorem groupsOfChunks_concat (cs : List (List (Nat × RawObject))) (c : List (Nat × RawObject)) :
    groupsOfChunks (cs ++ [c])
      = groupsOfChunks cs ++ [(cs.length + 1, chunkObjs (cs.length + 1) c)] := by
  unfold groupsOfChunks
  have henum : (cs ++ [c]).enum = cs.enum ++ [(cs.length, c)] := by
    show List.enumFrom 0 (cs ++ [c]) = List.enumFrom 0 cs ++ [(cs.length, c)]
    rw [List.enumFrom_append]
    simp [List.enumFrom_cons]
  rw [henum, List.map_append]
  simp

theorem groupsOfChunks_keys_le (cs : List (List (Nat × RawObject))) :
    ∀ p ∈ groupsOfChunks cs, p.1 ≤ cs.length := by
  intro p hp
  unfold groupsOfChunks at hp
  obtain ⟨jc, hjc, hpe⟩ := List.mem_map.mp hp
  have hfst : jc.1 ∈ cs.enum.map Prod.fst := List.mem_map_of_mem _ hjc
  rw [List.enum_map_fst] at hfst
  have := List.mem_range.mp hfst
  rw [← hpe]
  omega

theorem lastTagOf_concat (cs : List (List (Nat × RawObject))) (c : List (Nat × RawObject)) :
    lastTagOf (cs ++ [c]) = c.getLast?.map tagOf := by
  simp [lastTagOf, List.getLast?_concat]

theorem chunkObjs_append (z : Nat) (c : List (Nat × RawObject)) (io : Nat × RawObject) :
    chunkObjs z (c ++ [io]) = chunkObjs z c ++ [make_object io.1 (some z) io.2] := by
  simp [chunkObjs]

/-! The loop of `group_by_z_index` simulates the reference chunking. -/

theorem segStep_models (s : SegState) (cs : List (List (Nat × RawObject)))
    (ds : List (Nat × RawObject)) (io : Nat × RawObject)
    (hm : Models s cs ds) (hwf : ChunksWF cs) :
    Models (segStep s io) (refStep (cs, ds) io).1 (refStep (cs, ds) io).2
      ∧ ChunksWF (refStep (cs, ds) io).1 := by
  obtain ⟨hz, hp, hg, hza⟩ := hm
  by_cases hdeg : seg_degenerate io.2.bbox = true
  · refine ⟨⟨?_, ?_, ?_, ?_⟩, ?_⟩
    · simp [segStep, refStep, hdeg, hz]
    · simp [segStep, refStep, hdeg, hp]
    · simp [segStep, refStep, hdeg, hg]
    · simp [segStep, refStep, hdeg, hza]
    · simpa [refStep, hdeg] using hwf
  · rcases List.eq_nil_or_concat cs with hn | ⟨cs', c, hc⟩
    · subst hn
      have hp0 : s.prev_type = none := by simpa [lastTagOf] using hp
      have hz0 : s.z_index = 0 := by simpa using hz
      have hg0 : s.groups = [] := by simpa [groupsOfChunks] using hg
      refine ⟨⟨?_, ?_, ?_, ?_⟩, ?_⟩ <;>
        simp [segStep, refStep, hdeg, hp0, hz0, hg0, hza, chunkPush, appendGroup,
          groupsOfChunks, lastTagOf, tagOf, chunkObjs, ChunksWF, List.enum]
    · rw [List.concat_eq_append] at hc
      subst hc
      have hcne : c ≠ [] := hwf c (by simp)
      obtain ⟨y, hy⟩ := Option.isSome_iff_exists.mp (List.getLast?_isSome.mpr hcne)
      have hplast : s.prev_type = some (tagOf y) := by
        rw [hp, lastTagOf_concat, hy]
        rfl
      have hzlen : s.z_index = cs'.length + 1 := by
        rw [hz]
        simp
      have hkeys : ∀ p ∈ groupsOfChunks cs', p.1 ≠ cs'.length + 1 := by
        intro p hp'
        have := groupsOfChunks_keys_le cs' p hp'
        omega
      by_cases htag : tagOf io = tagOf y

      · -- same native tag as the previous non-degenerate primitive
        have hcond : ¬ (some io.2.tag ≠ s.prev_type) := by
          rw [hplast]
          simp [tagOf] at htag ⊢
          exact htag
        have hpush : chunkPush (cs' ++ [c]) io = cs' ++ [c ++ [io]] := by
          rw [chunkPush_concat, if_pos]
          rw [hy]
          simp [htag]
        have hgroups : appendGroup s.groups s.z_index (make_object io.1 (some s.z_index) io.2)
            = groupsOfChunks (cs' ++ [c ++ [io]]) := by
          rw [hg, groupsOfChunks_concat, hzlen, appendGroup_concat_key _ _ _ _ hkeys,
            groupsOfChunks_concat, chunkObjs_append]
        refine ⟨⟨?_, ?_, ?_, ?_⟩, ?_⟩
        · simp [segStep, refStep, hdeg, hcond, hzlen, hpush]
        · simp [segStep, refStep, hdeg, hcond, hpush, lastTagOf_concat, tagOf]
        · simp only [segStep, refStep, hdeg, Bool.false_eq_true, if_false, if_neg hcond,
            reduceIte]
          rw [hpush]
          simpa using hgroups
        · simp [segStep, refStep, hdeg, hcond, hza]
        · simp only [refStep, hdeg, Bool.false_eq_true, if_false, reduceIte]
          rw [hpush]
          intro d hd
          rcases List.mem_append.mp hd with hd | hd
          · exact hwf d (List.mem_append.mpr (Or.inl hd))
          · simp at hd
            subst hd
            simp
      · -- a different native tag: the z counter advances
        have hcond : some io.2.tag ≠ s.prev_type := by
          rw [hplast]
          simp [tagOf] at htag ⊢
          exact htag
        have hpush : chunkPush (cs' ++ [c]) io = (cs' ++ [c]) ++ [[io]] := by
          rw [chunkPush_concat, if_neg]
          · simp
          · rw [hy]
            simp only [Option.map_some', Option.some.injEq]
            exact fun he => htag he.symm
        have hkeys2 : ∀ p ∈ s.groups, p.1 ≠ s.z_index + 1 := by
          intro p hp'
          rw [hg] at hp'
          have := groupsOfChunks_keys_le _ p hp'
          simp at this
          omega
        have hgroups : appendGroup s.groups (s.z_index + 1)
              (make_object io.1 (some (s.z_index + 1)) io.2)
            = groupsOfChunks ((cs' ++ [c]) ++ [[io]]) := by
          rw [appendGroup_of_not_mem _ _ _ hkeys2, hg, hz]
          conv_rhs => rw [groupsOfChunks_concat]
          simp [chunkObjs]
        refine ⟨⟨?_, ?_, ?_, ?_⟩, ?_⟩
        · simp [segStep, refStep, hdeg, hcond, hz, hpush]
        · simp [segStep, refStep, hdeg, hcond, hpush, lastTagOf, tagOf]
        · simp only [segStep, refStep, hdeg, Bool.false_eq_true, if_false, if_pos hcond,
            reduceIte]
          rw [hpush]
          simpa using hgroups
        · simp [segStep, refStep, hdeg, hcond, hza]
        · simp only [refStep, hdeg, Bool.false_eq_true, if_false, reduceIte]
          rw [hpush]
          intro d hd
          rcases List.mem_append.mp hd with hd | hd
          · exact hwf d hd
          · simp at hd
            subst hd
            simp

theorem foldl_refStep_split (l : List (Nat × RawObject)) :
    ∀ (cs : List (List (Nat × RawObject))) (ds : List (Nat × RawObject)),
    l.foldl refStep (cs, ds)
      = (List.foldl chunkPush cs (l.filter fun io => !seg_degenerate io.2.bbox),
         ds ++ l.filter fun io => seg_degenerate io.2.bbox) := by
  induction l with
  | nil =>
    intro cs ds
    simp
  | cons io l ih =>
    intro cs ds
    by_cases h : seg_degenerate io.2.bbox = true
    · simp only [List.foldl_cons, refStep, h, if_true, reduceIte, List.filter_cons,
        Bool.not_true, Bool.false_eq_true]
      rw [ih]
      simp [h]
    · simp only [List.foldl_cons, refStep, h, Bool.false_eq_true, if_false, reduceIte,
        List.filter_cons]
      rw [ih]
      simp [h]

theorem foldl_models (l : List (Nat × RawObject)) :
    ∀ (s : SegState) (cs : List (List (Nat × RawObject))) (ds : List (Nat × RawObject)),
    Models s cs ds → ChunksWF cs →
    Models (l.foldl segStep s) (l.foldl refStep (cs, ds)).1 (l.foldl refStep (cs, ds)).2
      ∧ ChunksWF (l.foldl refStep (cs, ds)).1 := by
  induction l with
  | nil =>
    intro s cs ds hm hwf
    exact ⟨hm, hwf⟩
  | cons io l ih =>
    intro s cs ds hm hwf
    obtain ⟨hm', hwf'⟩ := segStep_models s cs ds io hm hwf
    simpa using ih (segStep s io) (refStep (cs, ds) io).1 (refStep (cs, ds) io).2 hm' hwf'

theorem filterMap_layer_of_wf (cs : List (List (Nat × RawObject))) :
    ∀ (k : Nat), ChunksWF cs →
    ((cs.enumFrom k).map fun jc => (jc.1 + 1, chunkObjs (jc.1 + 1) jc.2)).filterMap mkLayerEntry
      = (cs.enumFrom k).map fun jc => (jc.1 + 1, chunkLayer (jc.1 + 1) jc.2) := by
  induction cs with
  | nil =>
    intro k _
    simp
  | cons c cs ih =>
    intro k hwf
    have hcne : c ≠ [] := hwf c (by simp)
    have hrest : ChunksWF cs := fun d hd => hwf d (by simp [hd])
    cases c with
    | nil => exact absurd rfl hcne
    | cons x rest =>
      rw [List.enumFrom_cons, List.map_cons, List.map_cons]
      have hhead : mkLayerEntry ((k, x :: rest).1 + 1, chunkObjs ((k, x :: rest).1 + 1) (k, x :: rest).2)
          = some (k + 1, chunkLayer (k + 1) (x :: rest)) := by
        simp [mkLayerEntry, chunkObjs, chunkLayer, make_object, List.headI]
      rw [List.filterMap_cons_some hhead, ih (k + 1) hrest]

theorem segFold_models (objs : List RawObject) :
    Models (segFold objs) (chunksBy (ndEnum objs)) (degEnum objs)
      ∧ ChunksWF (chunksBy (ndEnum objs)) := by
  have h0 : Models { z_index := 0, prev_type := none, groups := [], zero_area := [] } [] [] :=
    ⟨rfl, rfl, rfl, rfl⟩
  have hwf0 : ChunksWF ([] : List (List (Nat × RawObject))) := by
    intro c hc
    simp at hc
  have hh := foldl_models objs.enum _ [] [] h0 hwf0
  rw [foldl_refStep_split] at hh
  simpa [segFold, chunksBy, ndEnum, degEnum] using hh

/-- The central characterization: the imperative fold of `group_by_z_index`
computes exactly the reference description `refSeg` — degenerate
primitives filtered out and listed separately, the rest chunked into
maximal runs of equal native tag, runs numbered from 1. -/
theorem group_by_z_index_eq_refSeg (objs : List RawObject) :
    group_by_z_index objs = refSeg objs := by
  obtain ⟨⟨hz, hp, hg, hza⟩, hwf⟩ := segFold_models objs
  unfold group_by_z_index refSeg
  rw [hg, hza]
  refine Prod.ext ?_ rfl
  exact filterMap_layer_of_wf (chunksBy (ndEnum objs)) 0 hwf

/-! Order and membership facts about the enumeration and the chunks. -/

theorem mem_of_mem_enum {α : Type} {l : List α} {io : Nat × α}
    (h : io ∈ l.enum) : io.2 ∈ l := by
  have := List.mem_map_of_mem Prod.snd h
  rwa [List.enum_map_snd] at this

theorem pairwise_fst_enumFrom (l : List RawObject) :
    ∀ k, List.Pairwise (fun a b : Nat × RawObject => a.1 < b.1) (l.enumFrom k) := by
  induction l with
  | nil =>
    intro k
    simp
  | cons x xs ih =>
    intro k
    rw [List.enumFrom_cons, List.pairwise_cons]
    refine ⟨?_, ih (k + 1)⟩
    intro y hy
    obtain ⟨i, o⟩ := y
    have := (List.mem_enumFrom hy).1
    simp only
    omega

theorem pairwise_fst_ndEnum (objs : List RawObject) :
    List.Pairwise (fun a b : Nat × RawObject => a.1 < b.1) (ndEnum objs) :=
  List.Pairwise.sublist (List.filter_sublist _) (pairwise_fst_enumFrom objs 0)

theorem chunk_pairwise_fst (objs : List RawObject) :
    ∀ c ∈ chunksBy (ndEnum objs),
      List.Pairwise (fun a b : Nat × RawObject => a.1 < b.1) c := by
  have h := pairwise_fst_ndEnum objs
  rw [← chunksBy_flatten (ndEnum objs)] at h
  exact (List.pairwise_flatten.mp h).1

theorem layers_mem (objs : List RawObject) (p : Nat × Layer)
    (hp : p ∈ (group_by_z_index objs).1) :
    ∃ j c, (j, c) ∈ (chunksBy (ndEnum objs)).enum ∧ p = (j + 1, chunkLayer (j + 1) c) := by
  rw [group_by_z_index_eq_refSeg] at hp
  obtain ⟨jc, hjc, he⟩ := List.mem_map.mp hp
  exact ⟨jc.1, jc.2, by simpa using hjc, he.symm⟩

theorem enumFrom_filter_map_snd (p : RawObject → Bool) (l : List RawObject) :
    ∀ k, ((l.enumFrom k).filter fun io => p io.2).map Prod.snd = l.filter p := by
  induction l with
  | nil =>
    intro k
    simp
  | cons x xs ih =>
    intro k
    rw [List.enumFrom_cons, List.filter_cons, List.filter_cons]
    by_cases h : p x
    · simp only [h, if_true, reduceIte, List.map_cons, ih (k + 1)]
    · simp only [h, Bool.false_eq_true, if_false, reduceIte, ih (k + 1)]

theorem ndEnum_map_snd (objs : List RawObject) :
    (ndEnum objs).map Prod.snd = objs.filter fun o => !seg_degenerate o.bbox :=
  enumFrom_filter_map_snd (fun o => !seg_degenerate o.bbox) objs 0

theorem degEnum_map_snd (objs : List RawObject) :
    (degEnum objs).map Prod.snd = objs.filter fun o => seg_degenerate o.bbox :=
  enumFrom_filter_map_snd (fun o => seg_degenerate o.bbox) objs 0

theorem headI_fst_le (c : List (Nat × RawObject))
    (hp : List.Pairwise (fun a b : Nat × RawObject => a.1 < b.1) c) :
    ∀ x ∈ c, c.headI.1 ≤ x.1 := by
  cases c with
  | nil =>
    intro x hx
    simp at hx
  | cons a l =>
    intro x hx
    rcases List.mem_cons.mp hx with h | h
    · subst h
      simp [List.headI]
    · have := (List.pairwise_cons.mp hp).1 x h
      simp only [List.headI]
      omega

theorem le_getLast_fst (c : List (Nat × RawObject)) :
    List.Pairwise (fun a b : Nat × RawObject => a.1 < b.1) c →
    ∀ x ∈ c, ∀ y, c.getLast? = some y → x.1 ≤ y.1 := by
  induction c with
  | nil =>
    intro _ x hx
    simp at hx
  | cons a l ih =>
    intro hp x hx y hy
    cases l with
    | nil =>
      simp at hy hx
      subst hx
      subst hy
      exact le_refl _
    | cons b m =>
      rw [List.getLast?_cons_cons] at hy
      rcases List.mem_cons.mp hx with h | h
      · subst h
        have hmem : y ∈ b :: m := mem_of_getLast? hy
        have := (List.pairwise_cons.mp hp).1 y hmem
        omega
      · exact ih (List.pairwise_cons.mp hp).2 x h y hy

/-! The Python slice `objs[start:end+1]` kept by `create_layer` contains
exactly the primitives with sequence id in `[start, end]`. -/

theorem filter_range_map_snd (l : List RawObject) (s e : Nat) :
    ∀ k,
    ((l.enumFrom k).filter fun io => decide (s ≤ io.1) && decide (io.1 ≤ e)).map Prod.snd
      = (l.take (e + 1 - k)).drop (s - k) := by
  induction l with
  | nil =>
    intro k
    simp
  | cons x xs ih =>
    intro k
    rw [List.enumFrom_cons, List.filter_cons]
    by_cases hke : k ≤ e
    · by_cases hsk : s ≤ k
      · have hcond : (decide (s ≤ (k, x).1) && decide ((k, x).1 ≤ e)) = true := by
          simp only [decide_eq_true_eq, Bool.and_eq_true]
          exact ⟨hsk, hke⟩
        rw [if_pos hcond, List.map_cons, ih (k + 1)]
        have h1 : s - k = 0 := by omega
        have h2 : s - (k + 1) = 0 := by omega
        have h3 : e + 1 - k = (e + 1 - (k + 1)) + 1 := by omega
        rw [h1, h2, h3, List.take_succ_cons, List.drop_zero, List.drop_zero]
      · have hcond : (decide (s ≤ (k, x).1) && decide ((k, x).1 ≤ e)) = false := by
          simp only [Bool.and_eq_false_iff, decide_eq_false_iff_not]
          exact Or.inl (by omega)
        rw [if_neg (by rw [hcond]; exact Bool.false_ne_true), ih (k + 1)]
        have h3 : e + 1 - k = (e + 1 - (k + 1)) + 1 := by omega
        have h4 : s - k = (s - (k + 1)) + 1 := by omega
        rw [h3, h4, List.take_succ_cons, List.drop_succ_cons]
    · have hcond : (decide (s ≤ (k, x).1) && decide ((k, x).1 ≤ e)) = false := by
        simp only [Bool.and_eq_false_iff, decide_eq_false_iff_not]
        exact Or.inr (by omega)
      rw [if_neg (by rw [hcond]; exact Bool.false_ne_true), ih (k + 1)]
      have h5 : e + 1 - k = 0 := by omega
      have h6 : e + 1 - (k + 1) = 0 := by omega
      rw [h5, h6]
      simp

/-! Job execution: all-success runs write every file; the first failure
aborts the remaining jobs. -/

theorem runJob_ok (R : RenderOracle) (scale : ℚ) (j : Job)
    (h : jobOk R scale j = true) :
    runJob R scale j = Except.ok (jobFile j) := by
  unfold jobOk at h
  cases j with
  | page n =>
    cases hb : R.renderPage (n - 1) scale with
    | error e =>
      rw [runJob, hb] at h ⊢
      simp [Except.map] at h
    | ok u =>
      rw [runJob, hb] at h ⊢
      simp [Except.map]
  | layer n z s e =>
    cases hb : R.renderLayer (n - 1) s e scale with
    | error err =>
      rw [runJob, hb] at h ⊢
      simp [Except.map] at h
    | ok u =>
      rw [runJob, hb] at h ⊢
      simp [Except.map]

theorem runJob_error (R : RenderOracle) (scale : ℚ) (j : Job)
    (h : jobOk R scale j = false) :
    ∃ e, runJob R scale j = Except.error e := by
  unfold jobOk at h
  cases hr : runJob R scale j with
  | error e => exact ⟨e, rfl⟩
  | ok f =>
    rw [hr] at h
    simp at h

theorem runJobs_eq (R : RenderOracle) (scale : ℚ) (js : List Job) :
    runJobs R scale js
      = ((js.takeWhile (jobOk R scale)).map jobFile,
         (js.dropWhile (jobOk R scale)).head?.bind fun j => errOf (runJob R scale j)) := by
  induction js with
  | nil => simp [runJobs]
  | cons j js ih =>
    by_cases h : jobOk R scale j = true
    · have hok := runJob_ok R scale j h
      rw [runJobs, hok]
      simp only [List.takeWhile_cons, List.dropWhile_cons, h, if_true, reduceIte, ih,
        List.map_cons]
    · obtain ⟨e, he⟩ := runJob_error R scale j (by simpa using h)
      rw [runJobs, he]
      simp only [List.takeWhile_cons, List.dropWhile_cons, h, Bool.false_eq_true, if_false,
        reduceIte, List.map_nil, List.head?_cons]
      simp [errOf, he]

/-! Keys of the produced layers dictionary: 1, 2, ..., number of runs. -/

theorem enum_map_fst_succ {α : Type} (cs : List α) :
    cs.enum.map (fun jc => jc.1 + 1) = List.range' 1 cs.length := by
  have h2 : cs.enum.map (fun jc => jc.1 + 1) = (cs.enum.map Prod.fst).map (· + 1) := by
    rw [List.map_map]
    rfl
  rw [h2, List.enum_map_fst, List.range'_eq_map_range]
  exact List.map_congr_left fun a _ => Nat.add_comm a 1

theorem group_keys (objs : List RawObject) :
    (group_by_z_index objs).1.map Prod.fst
      = List.range' 1 (group_by_z_index objs).1.length := by
  rw [group_by_z_index_eq_refSeg]
  unfold refSeg
  simp only [List.map_map, List.length_map, List.enum_length]
  show (chunksBy (ndEnum objs)).enum.map (fun jc => jc.1 + 1)
      = List.range' 1 (chunksBy (ndEnum objs)).length
  exact enum_map_fst_succ (chunksBy (ndEnum objs))

/-! Identity-free views: chunking and layer shapes depend only on the raw
primitives, not on their enumeration indices. -/

theorem headI_snd_map (c : List (Nat × RawObject)) :
    (c.map Prod.snd).headI = c.headI.2 := by
  cases c <;> rfl

theorem getLast?_tagIO_eq (c c' : List (Nat × RawObject))
    (h : c.map Prod.snd = c'.map Prod.snd) :
    c.getLast?.map tagOf = c'.getLast?.map tagOf := by
  have h1 : c.getLast?.map tagOf = (c.map Prod.snd).getLast?.map RawObject.tag := by
    rw [List.getLast?_map, Option.map_map]
    rfl
  have h2 : c'.getLast?.map tagOf = (c'.map Prod.snd).getLast?.map RawObject.tag := by
    rw [List.getLast?_map, Option.map_map]
    rfl
  rw [h1, h2, h]

theorem chunkPush_congr (cs : List (List (Nat × RawObject))) :
    ∀ (cs' : List (List (Nat × RawObject))) (x y : Nat × RawObject),
    cs.map (List.map Prod.snd) = cs'.map (List.map Prod.snd) → x.2 = y.2 →
    (chunkPush cs x).map (List.map Prod.snd)
      = (chunkPush cs' y).map (List.map Prod.snd) := by
  induction cs with
  | nil =>
    intro cs' x y h hxy
    have : cs' = [] := by simpa using h.symm
    subst this
    simp [chunkPush, hxy]
  | cons c cs ih =>
    intro cs' x y h hxy
    cases cs' with
    | nil => simp at h
    | cons c' cs₂ =>
      simp only [List.map_cons, List.cons.injEq] at h
      obtain ⟨hc, hcs⟩ := h
      have htags : tagOf x = tagOf y := by
        simp [tagOf, hxy]
      cases cs with
      | nil =>
        have hnil : cs₂ = [] := by simpa using hcs.symm
        subst hnil
        have hcond := getLast?_tagIO_eq c c' hc
        by_cases hcnd : c.getLast?.map tagOf = some (tagOf x)
        · have hcnd' : c'.getLast?.map tagOf = some (tagOf y) := by
            rw [← hcond, hcnd, htags]
          simp [chunkPush, hcnd, hcnd', hc, hxy]
        · have hcnd' : ¬ c'.getLast?.map tagOf = some (tagOf y) := by
            rw [← hcond, ← htags]
            exact hcnd
          simp [chunkPush, hcnd, hcnd', hc, hxy]
      | cons c₂ cs₃ =>
        cases cs₂ with
        | nil => simp at hcs
        | cons c₂' cs₄ =>
          have hl : chunkPush (c :: c₂ :: cs₃) x = c :: chunkPush (c₂ :: cs₃) x := rfl
          have hr : chunkPush (c' :: c₂' :: cs₄) y = c' :: chunkPush (c₂' :: cs₄) y := rfl
          rw [hl, hr, List.map_cons, List.map_cons, hc, ih (c₂' :: cs₄) x y hcs hxy]

theorem chunksBy_foldl_congr (l : List (Nat × RawObject)) :
    ∀ (m : List (Nat × RawObject)) (cs cs' : List (List (Nat × RawObject))),
    l.map Prod.snd = m.map Prod.snd →
    cs.map (List.map Prod.snd) = cs'.map (List.map Prod.snd) →
    (l.foldl chunkPush cs).map (List.map Prod.snd)
      = (m.foldl chunkPush cs').map (List.map Prod.snd) := by
  induction l with
  | nil =>
    intro m cs cs' hl hcs
    have : m = [] := by simpa using hl.symm
    subst this
    simpa using hcs
  | cons x l ih =>
    intro m cs cs' hl hcs
    cases m with
    | nil => simp at hl
    | cons y m' =>
      simp only [List.map_cons, List.cons.injEq] at hl
      obtain ⟨hxy, hlm⟩ := hl
      exact ih m' _ _ hlm (chunkPush_congr cs cs' x y hcs hxy)

theorem chunksBy_map_snd_congr (l m : List (Nat × RawObject))
    (h : l.map Prod.snd = m.map Prod.snd) :
    (chunksBy l).map (List.map Prod.snd) = (chunksBy m).map (List.map Prod.snd) :=
  chunksBy_foldl_congr l m [] [] h rfl

theorem chunkObjs_shape (z : Nat) (c : List (Nat × RawObject)) :
    (chunkObjs z c).map objShape = (c.map Prod.snd).map (rawShape (some z)) := by
  unfold chunkObjs
  rw [List.map_map, List.map_map]
  exact List.map_congr_left fun io _ => rfl

theorem layers_shape_of_chunks (cs : List (List (Nat × RawObject))) :
    ∀ (cs' : List (List (Nat × RawObject))) (k : Nat),
    cs.map (List.map Prod.snd) = cs'.map (List.map Prod.snd) →
    (cs.enumFrom k).map (fun jc => layerShape (jc.1 + 1, chunkLayer (jc.1 + 1) jc.2))
      = (cs'.enumFrom k).map (fun jc => layerShape (jc.1 + 1, chunkLayer (jc.1 + 1) jc.2)) := by
  induction cs with
  | nil =>
    intro cs' k h
    have : cs' = [] := by simpa using h.symm
    subst this
    rfl
  | cons c cs ih =>
    intro cs' k h
    cases cs' with
    | nil => simp at h
    | cons c' cs₂ =>
      simp only [List.map_cons, List.cons.injEq] at h
      obtain ⟨hc, hcs⟩ := h
      rw [List.enumFrom_cons, List.enumFrom_cons, List.map_cons, List.map_cons,
        ih cs₂ (k + 1) hcs]
      have hhead : TYPE_NAMES c.headI.2.tag = TYPE_NAMES c'.headI.2.tag := by
        rw [← headI_snd_map, ← headI_snd_map, hc]
      have hobjs : (chunkObjs (k + 1) c).map objShape = (chunkObjs (k + 1) c').map objShape := by
        rw [chunkObjs_shape, chunkObjs_shape, hc]
      congr 1
      show (k + 1, TYPE_NAMES c.headI.2.tag, (chunkObjs (k + 1) c).map objShape)
          = (k + 1, TYPE_NAMES c'.headI.2.tag, (chunkObjs (k + 1) c').map objShape)
      rw [hhead, hobjs]

theorem group_layerShapes (objs objs' : List RawObject)
    (h : (objs.filter fun o => !seg_degenerate o.bbox)
        = (objs'.filter fun o => !seg_degenerate o.bbox)) :
    (group_by_z_index objs).1.map layerShape = (group_by_z_index objs').1.map layerShape := by
  rw [group_by_z_index_eq_refSeg, group_by_z_index_eq_refSeg]
  unfold refSeg
  rw [List.map_map, List.map_map]
  have hsnd : (ndEnum objs).map Prod.snd = (ndEnum objs').map Prod.snd := by
    rw [ndEnum_map_snd, ndEnum_map_snd, h]
  have hchunks := chunksBy_map_snd_congr _ _ hsnd
  exact layers_shape_of_chunks _ _ 0 hchunks

theorem group_degShapes (objs : List RawObject) :
    (group_by_z_index objs).2.map objShape
      = (objs.filter fun o => seg_degenerate o.bbox).map (rawShape none) := by
  rw [group_by_z_index_eq_refSeg]
  unfold refSeg
  rw [List.map_map]
  have h1 : (degEnum objs).map (objShape ∘ fun io => make_object io.1 none io.2)
      = ((degEnum objs).map Prod.snd).map (rawShape none) := by
    rw [List.map_map]
    exact List.map_congr_left fun io _ => rfl
  rw [h1, degEnum_map_snd]

/-! Small helpers for the alternating-kind scenario and for id lists. -/

theorem kindsAlternate_chain' (l : List RawObject) (h : kindsAlternate l = true) :
    List.Chain' (fun o p : RawObject => TYPE_NAMES o.tag ≠ TYPE_NAMES p.tag) l := by
  induction l with
  | nil => simp
  | cons a l ih =>
    cases l with
    | nil => simp
    | cons b m =>
      rw [kindsAlternate, Bool.and_eq_true, decide_eq_true_eq] at h
      rw [List.chain'_cons]
      exact ⟨h.1, ih h.2⟩

theorem enum_enumFrom_self (objs : List RawObject) :
    ∀ k, (objs.enumFrom k).enumFrom k = (objs.enumFrom k).map fun io => (io.1, io) := by
  induction objs with
  | nil =>
    intro k
    simp
  | cons x xs ih =>
    intro k
    rw [List.enumFrom_cons, List.enumFrom_cons, List.map_cons, ih (k + 1)]

theorem chunkObjs_ids (z : Nat) (c : List (Nat × RawObject)) :
    (chunkObjs z c).map (fun o => o.id) = c.map Prod.fst := by
  unfold chunkObjs
  rw [List.map_map]
  exact List.map_congr_left fun io _ => rfl

/-! Claim theorems. -/

/-- C1 (counterexample): the claim says `z` is incremented exactly when the
classified kind (native tag mapped through `TYPE_NAMES`) differs from the
previous non-degenerate primitive's kind.  On the code this is false: the
loop compares native tags, so two adjacent non-degenerate primitives with
distinct unrecognized tags 6 and 7 — both classified UNKNOWN, a
constant-kind run — are split into two layers instead of one. -/
theorem c1_counterexample :
    TYPE_NAMES objTag6.tag = PDFObjectType.UNKNOWN
    ∧ TYPE_NAMES objTag7.tag = PDFObjectType.UNKNOWN
    ∧ seg_degenerate objTag6.bbox = false
    ∧ seg_degenerate objTag7.bbox = false
    ∧ (group_by_z_index [objTag6, objTag7]).1.length = 2
    ∧ ((group_by_z_index [objTag6, objTag7]).1.map fun p => p.2.type)
        = [PDFObjectType.UNKNOWN, PDFObjectType.UNKNOWN] := by
  with_unfolding_all decide

/-- C1 (amended): the Z-Segmenter partitions the non-degenerate primitives
into maximal runs of constant NATIVE TAG (not mapped kind): the chunks
concatenate back to the non-degenerate enumeration, are non-empty and
tag-constant, adjacent chunks carry different tags, and the produced layer
list is exactly the chunk list numbered 1, 2, ….  In particular, for a
page with no degenerate primitives whose classified kinds strictly
alternate, the output is exactly N singleton layers with z_index 1..N
(distinct kinds force distinct tags, so the amendment preserves
Scenario E). -/
theorem c1_z_segmenter_runs (objs : List RawObject) :
    ((chunksBy (ndEnum objs)).flatten = ndEnum objs
      ∧ (∀ c ∈ chunksBy (ndEnum objs), c ≠ [] ∧ ∀ x ∈ c, ∀ y ∈ c, x.2.tag = y.2.tag)
      ∧ List.Chain' (fun c₁ c₂ => c₁.getLast?.map tagOf ≠ c₂.head?.map tagOf)
          (chunksBy (ndEnum objs)))
    ∧ ((group_by_z_index objs).1
        = (chunksBy (ndEnum objs)).enum.map fun jc => (jc.1 + 1, chunkLayer (jc.1 + 1) jc.2))
    ∧ (objs.all (fun o => !seg_degenerate o.bbox) = true →
        kindsAlternate objs = true →
        (group_by_z_index objs).1
          = objs.enum.map fun io => (io.1 + 1, chunkLayer (io.1 + 1) [io])) := by
  refine ⟨⟨chunksBy_flatten _, ?_, chunksBy_adjDiff _⟩, ?_, ?_⟩
  · intro c hc
    obtain ⟨hne, huni⟩ := chunksBy_uniform (ndEnum objs) c hc
    exact ⟨hne, huni⟩
  · rw [group_by_z_index_eq_refSeg]
    rfl
  · intro hnd halt
    have hnd' : ndEnum objs = objs.enum := by
      unfold ndEnum
      rw [List.filter_eq_self]
      intro io hio
      have := List.all_eq_true.mp hnd io.2 (mem_of_mem_enum hio)
      simpa using this
    have hchain : List.Chain' (fun a b : Nat × RawObject => tagOf a ≠ tagOf b) objs.enum := by
      have h1 := (kindsAlternate_chain' objs halt).imp
        (S := fun o p : RawObject => o.tag ≠ p.tag)
        (fun o p hne he => hne (by rw [he]))
      have h2 : List.Chain' (fun o p : RawObject => o.tag ≠ p.tag)
          (objs.enum.map Prod.snd) := by
        rw [List.enum_map_snd]
        exact h1
      exact (List.chain'_map Prod.snd).mp h2
    rw [group_by_z_index_eq_refSeg]
    show (chunksBy (ndEnum objs)).enum.map _ = _
    rw [hnd', chunksBy_of_chain' _ hchain, List.enum_map]
    have henum : objs.enum.enum = objs.enum.map fun io => (io.1, io) :=
      enum_enumFrom_self objs 0
    rw [henum, List.map_map, List.map_map]
    rfl

/-- C1 witness: the alternating scenario instantiated on the concrete page
TEXT, PATH, TEXT. -/
theorem c1_witness :
    ([objText1, objPath1, objText2].all (fun o => !seg_degenerate o.bbox) = true
      ∧ kindsAlternate [objText1, objPath1, objText2] = true)
    ∧ (group_by_z_index [objText1, objPath1, objText2]).1
        = [objText1, objPath1, objText2].enum.map
            fun io => (io.1 + 1, chunkLayer (io.1 + 1) [io]) :=
  ⟨⟨by with_unfolding_all decide, by with_unfolding_all decide⟩,
    (c1_z_segmenter_runs [objText1, objPath1, objText2]).2.2
      (by with_unfolding_all decide) (by with_unfolding_all decide)⟩

/-- C2: a degenerate primitive is routed to the degenerate list with
`z_index = None` and leaves the whole loop state (`z`, `prev_type`, the
groups) unchanged; consequently inserting a degenerate primitive of any
kind between two non-degenerate primitives of the same kind yields exactly
the same layer partition (up to the shift of the later sequence ids) plus
one extra degenerate entry, in order, carrying `z_index = None` — the
surrounding run is not split. -/
theorem c2_degenerate_preserves_runs (xs ys : List RawObject) (a d b : RawObject)
    (ha : seg_degenerate a.bbox = false) (hb : seg_degenerate b.bbox = false)
    (hk : TYPE_NAMES a.tag = TYPE_NAMES b.tag) (hd : seg_degenerate d.bbox = true) :
    (∀ (s : SegState) (io : Nat × RawObject), seg_degenerate io.2.bbox = true →
        segStep s io = { s with zero_area := s.zero_area ++ [make_object io.1 none io.2] }
          ∧ (make_object io.1 none io.2).z_index = none)
    ∧ (group_by_z_index (xs ++ a :: d :: b :: ys)).1.map layerShape
        = (group_by_z_index (xs ++ a :: b :: ys)).1.map layerShape
    ∧ (group_by_z_index (xs ++ a :: d :: b :: ys)).2.map objShape
        = ((xs.filter fun o => seg_degenerate o.bbox).map (rawShape none))
            ++ [rawShape none d]
            ++ (((b :: ys).filter fun o => seg_degenerate o.bbox).map (rawShape none))
    ∧ (group_by_z_index (xs ++ a :: b :: ys)).2.map objShape
        = ((xs.filter fun o => seg_degenerate o.bbox).map (rawShape none))
            ++ (((b :: ys).filter fun o => seg_degenerate o.bbox).map (rawShape none)) := by
  refine ⟨?_, ?_, ?_, ?_⟩
  · intro s io hio
    constructor
    · simp [segStep, hio]
    · rfl
  · apply group_layerShapes
    rw [List.filter_append, List.filter_append]
    simp [List.filter_cons, ha, hb, hd]
  · rw [group_degShapes, List.filter_append]
    simp [List.filter_cons, ha, hb, hd]
  · rw [group_degShapes, List.filter_append]
    simp [List.filter_cons, ha, hb]

/-- C2 witness: Scenario B — a degenerate PATH between two TEXT
primitives; the TEXT run is not split and the degenerate entry appears
with `z_index = None`. -/
theorem c2_witness :
    (seg_degenerate objText1.bbox = false ∧ seg_degenerate objText2.bbox = false
      ∧ TYPE_NAMES objText1.tag = TYPE_NAMES objText2.tag
      ∧ seg_degenerate objDegen.bbox = true)
    ∧ (group_by_z_index ([] ++ objText1 :: objDegen :: objText2 :: [objPath1])).1.map layerShape
        = (group_by_z_index ([] ++ objText1 :: objText2 :: [objPath1])).1.map layerShape
    ∧ (group_by_z_index ([] ++ objText1 :: objDegen :: objText2 :: [objPath1])).2.map objShape
        = (([].filter fun o => seg_degenerate o.bbox).map (rawShape none))
            ++ [rawShape none objDegen]
            ++ (((objText2 :: [objPath1]).filter fun o => seg_degenerate o.bbox).map
                (rawShape none)) :=
  ⟨⟨by with_unfolding_all decide, by with_unfolding_all decide,
      by with_unfolding_all decide, by with_unfolding_all decide⟩,
    (c2_degenerate_preserves_runs [] [objPath1] objText1 objDegen objText2
      (by with_unfolding_all decide) (by with_unfolding_all decide)
      (by with_unfolding_all decide) (by with_unfolding_all decide)).2.1,
    (c2_degenerate_preserves_runs [] [objPath1] objText1 objDegen objText2
      (by with_unfolding_all decide) (by with_unfolding_all decide)
      (by with_unfolding_all decide) (by with_unfolding_all decide)).2.2.1⟩

/-- C3 (counterexample): on a two-page document whose layer rasterization
fails, the failure of page 1's single layer aborts everything: only
page 1's full-page raster was written, page 2 is never rendered, and the
propagated error is the bare rasterization error (no RenderError wrapper
exists in the code) — contradicting the claim that remaining layers and
pages still complete. -/
theorem c3_counterexample :
    (render_pages layerFailOracle (extract_pages twoRawPages) 1).2
        = some "rasterization failed"
    ∧ (render_pages layerFailOracle (extract_pages twoRawPages) 1).1
        = ["pages/p001/page.png"]
    ∧ "pages/p002/page.png" ∉ (render_pages layerFailOracle (extract_pages twoRawPages) 1).1 := by
  with_unfolding_all decide

/-- C3 (amended): if rendering one layer (or one full page) fails, the
exception propagates immediately: the result of `render_pages` is exactly
the files of the longest all-successful prefix of the render jobs, paired
with the error of the first failing job — no later layer or page of the
document is processed. -/
theorem c3_render_failure_aborts (R : RenderOracle) (pages : List Page) (scale : ℚ) :
    render_pages R pages scale
      = (((jobList pages).takeWhile (jobOk R scale)).map jobFile,
         ((jobList pages).dropWhile (jobOk R scale)).head?.bind
           fun j => errOf (runJob R scale j)) :=
  runJobs_eq R scale (jobList pages)

/-- C4 (counterexample): a 0.01×0.01 box has width and height both at
least ε = 1e-4 (so the claimed predicate `width < ε ∨ height < ε` is
false, and the segmentation loop does not treat it as degenerate), yet its
`is_zero_area` property is true, because the code's property tests
`area ≤ 1e-4`, a different predicate from the one the claim states. -/
theorem c4_counterexample :
    objSmall.is_zero_area = true
    ∧ seg_degenerate objSmall.bbox = false
    ∧ ¬ (objSmall.width < 0.0001 ∨ objSmall.height < 0.0001) := by
  with_unfolding_all decide

/-- C4 (amended): the predicate applied before z-segmentation is
`(x2-x1) < 1e-4 ∨ (y2-y1) < 1e-4` (equivalently `width < ε ∨ height < ε`),
but the primitive record's `is_zero_area` property is the different
predicate `area = width·height ≤ 1e-4`. -/
theorem c4_degeneracy_predicates (o : PDFObject) :
    (seg_degenerate o.bbox = true ↔ (o.width < 0.0001 ∨ o.height < 0.0001))
    ∧ (o.is_zero_area = true ↔ o.area ≤ 0.0001)
    ∧ o.area = o.width * o.height := by
  refine ⟨?_, ?_, rfl⟩
  · simp [seg_degenerate, PDFObject.width, PDFObject.height]
  · simp [PDFObject.is_zero_area]

/-- C6: every primitive of the page lands in exactly one of the two
output collections: the ids collected across all layers plus the ids of
the degenerate list are a permutation of 0..n-1, so each sequence id
occurs exactly once overall — never both collections, never neither. -/
theorem c6_partition (objs : List RawObject) :
    ((((group_by_z_index objs).1.map fun p => p.2.objects).flatten.map fun o => o.id)
        ++ (group_by_z_index objs).2.map fun o => o.id).Perm (List.range objs.length)
    ∧ ∀ i : Nat,
        ((((group_by_z_index objs).1.map fun p => p.2.objects).flatten.map fun o => o.id)
          ++ (group_by_z_index objs).2.map fun o => o.id).count i
        = if i < objs.length then 1 else 0 := by
  have hlayerids : (((group_by_z_index objs).1.map fun p => p.2.objects).flatten.map
      fun o => o.id) = (ndEnum objs).map Prod.fst := by
    rw [group_by_z_index_eq_refSeg]
    show ((((chunksBy (ndEnum objs)).enum.map fun jc =>
        (jc.1 + 1, chunkLayer (jc.1 + 1) jc.2)).map fun p => p.2.objects).flatten.map
          fun o => o.id) = _
    rw [List.map_map, List.map_flatten, List.map_map]
    have h1 : ((chunksBy (ndEnum objs)).enum.map
          ((List.map fun o => o.id) ∘ (fun p : Nat × Layer => p.2.objects) ∘
            fun jc => (jc.1 + 1, chunkLayer (jc.1 + 1) jc.2)))
        = (chunksBy (ndEnum objs)).enum.map fun jc => jc.2.map Prod.fst :=
      List.map_congr_left fun jc _ => chunkObjs_ids (jc.1 + 1) jc.2
    rw [h1]
    have h2 : (chunksBy (ndEnum objs)).enum.map (fun jc => jc.2.map Prod.fst)
        = ((chunksBy (ndEnum objs)).enum.map Prod.snd).map fun c => c.map Prod.fst := by
      rw [List.map_map]
      rfl
    rw [h2, List.enum_map_snd, ← List.map_flatten, chunksBy_flatten]
  have hdegids : ((group_by_z_index objs).2.map fun o => o.id)
      = (degEnum objs).map Prod.fst := by
    rw [group_by_z_index_eq_refSeg]
    show ((degEnum objs).map fun io => make_object io.1 none io.2).map (fun o => o.id) = _
    rw [List.map_map]
    exact List.map_congr_left fun io _ => rfl
  have hperm : ((ndEnum objs) ++ (degEnum objs)).Perm objs.enum := by
    have h := List.filter_append_perm (fun io : Nat × RawObject => !seg_degenerate io.2.bbox)
      objs.enum
    have heq : objs.enum.filter (fun x => !(!seg_degenerate x.2.bbox))
        = objs.enum.filter fun io => seg_degenerate io.2.bbox := by
      apply List.filter_congr
      intro x _
      simp
    rw [heq] at h
    exact h
  have hidperm : ((((group_by_z_index objs).1.map fun p => p.2.objects).flatten.map
        fun o => o.id) ++ (group_by_z_index objs).2.map fun o => o.id).Perm
      (List.range objs.length) := by
    rw [hlayerids, hdegids, ← List.map_append]
    have := hperm.map Prod.fst
    rwa [List.enum_map_fst] at this
  refine ⟨hidperm, ?_⟩
  intro i
  rw [hidperm.count_eq i]
  by_cases h : i < objs.length
  · rw [if_pos h]
    exact List.count_eq_one_of_mem (List.nodup_range _) (List.mem_range.mpr h)
  · rw [if_neg h]
    exact List.count_eq_zero_of_not_mem (by simpa using h)

/-- C7: every layer produced by segmentation is kind-homogeneous — its
type is its first member's type and every member shares it — and
`Layer.add_object` rejects an object of a different kind, leaving the
member list unchanged, while accepting a matching one by appending it. -/
theorem c7_layer_kind_invariant (objs : List RawObject) (l : Layer) (o : PDFObject) :
    (∀ p ∈ (group_by_z_index objs).1,
        p.2.objects ≠ [] ∧ p.2.type = p.2.objects.headI.type
          ∧ ∀ x ∈ p.2.objects, x.type = p.2.type)
    ∧ (o.type ≠ l.type →
        Layer.add_object l o
          = (l, some ("Cannot add " ++ typeValue o.type ++ " object to layer of type "
              ++ typeValue l.type)))
    ∧ (o.type = l.type →
        Layer.add_object l o = ({ l with objects := l.objects ++ [o] }, none)) := by
  refine ⟨?_, ?_, ?_⟩
  · intro p hp
    obtain ⟨j, c, hjc, hpe⟩ := layers_mem objs p hp
    have hcmem : c ∈ chunksBy (ndEnum objs) := mem_of_mem_enum hjc
    obtain ⟨hcne, huni⟩ := chunksBy_uniform (ndEnum objs) c hcmem
    subst hpe
    cases c with
    | nil => exact absurd rfl hcne
    | cons x rest =>
      refine ⟨by simp [chunkLayer, chunkObjs], ?_, ?_⟩
      · simp [chunkLayer, chunkObjs, make_object, List.headI]
      · intro xo hxo
        simp only [chunkLayer, chunkObjs] at hxo ⊢
        obtain ⟨io, hio, hxoe⟩ := List.mem_map.mp hxo
        have htag : tagOf io = tagOf (x :: rest).headI :=
          huni io hio (x :: rest).headI (by simp [List.headI])
        rw [← hxoe]
        show TYPE_NAMES io.2.tag = TYPE_NAMES (x :: rest).headI.2.tag
        rw [show io.2.tag = tagOf io from rfl, htag]
        rfl
  · intro hne
    simp [Layer.add_object, hne]
  · intro heq
    simp [Layer.add_object, heq]

/-- C7 witness: adding a PATH object to the Scenario A TEXT layer is
rejected with the layer unchanged; adding a TEXT object appends it. -/
theorem c7_witness :
    (objP.type ≠ layerT.type
      ∧ Layer.add_object layerT objP
          = (layerT, some ("Cannot add " ++ typeValue objP.type
              ++ " object to layer of type " ++ typeValue layerT.type)))
    ∧ (objT2.type = layerT.type
      ∧ Layer.add_object layerT objT2
          = ({ layerT with objects := layerT.objects ++ [objT2] }, none))
    ∧ ((1, layerT) ∈ (group_by_z_index [objText1]).1
      ∧ layerT.objects ≠ []) :=
  ⟨⟨by with_unfolding_all decide,
      (c7_layer_kind_invariant [objText1] layerT objP).2.1 (by with_unfolding_all decide)⟩,
    ⟨by with_unfolding_all decide,
      (c7_layer_kind_invariant [objText1] layerT objT2).2.2 (by with_unfolding_all decide)⟩,
    ⟨by with_unfolding_all decide,
      ((c7_layer_kind_invariant [objText1] layerT objP).1 (1, layerT)
        (by with_unfolding_all decide)).1⟩⟩

/-- C5: for every layer produced by segmentation, the id range that
`render_pages` passes to `render_layer` — the first member's id and the
last member's id — is exactly the minimum and maximum sequence id of the
layer's members, and `create_layer` on that range keeps exactly the
primitives whose sequence id lies in `[start, end]` inclusive (so
degenerate primitives whose id falls inside the range are retained in the
reconstructed page). -/
theorem c5_render_layer_range (objs : List RawObject) (p : Nat × Layer)
    (hp : p ∈ (group_by_z_index objs).1) :
    p.2.objects ≠ []
    ∧ (∀ o ∈ p.2.objects,
        p.2.objects.headI.id ≤ o.id ∧ o.id ≤ p.2.objects.getLastI.id)
    ∧ create_layer objs p.2.objects.headI.id p.2.objects.getLastI.id
        = Except.ok ((objs.enum.filter fun io =>
            decide (p.2.objects.headI.id ≤ io.1)
              && decide (io.1 ≤ p.2.objects.getLastI.id)).map Prod.snd) := by
  obtain ⟨j, c, hjc, hpe⟩ := layers_mem objs p hp
  have hcmem : c ∈ chunksBy (ndEnum objs) := mem_of_mem_enum hjc
  have hcne : c ≠ [] := (chunksBy_uniform (ndEnum objs) c hcmem).1
  have hpw := chunk_pairwise_fst objs c hcmem
  subst hpe
  cases c with
  | nil => exact absurd rfl hcne
  | cons x rest =>
    obtain ⟨y, hy⟩ := Option.isSome_iff_exists.mp
      (List.getLast?_isSome.mpr (List.cons_ne_nil x rest))
    have hheadid : ((j + 1, chunkLayer (j + 1) (x :: rest)).2).objects.headI.id = x.1 := rfl
    have hlastopt : ((j + 1, chunkLayer (j + 1) (x :: rest)).2).objects.getLast?
        = some (make_object y.1 (some (j + 1)) y.2) := by
      show (chunkObjs (j + 1) (x :: rest)).getLast? = _
      unfold chunkObjs
      rw [List.getLast?_map, hy]
      rfl
    have hlastid : ((j + 1, chunkLayer (j + 1) (x :: rest)).2).objects.getLastI.id = y.1 := by
      rw [List.getLastI_eq_getLast?, hlastopt, Option.iget_some]
      rfl
    have hxy : x.1 ≤ y.1 :=
      le_getLast_fst (x :: rest) hpw x (by simp) y hy
    refine ⟨by simp [chunkLayer, chunkObjs], ?_, ?_⟩
    · intro o ho
      simp only [chunkLayer, chunkObjs] at ho
      obtain ⟨io, hio, hoe⟩ := List.mem_map.mp ho
      rw [hheadid, hlastid, ← hoe]
      show x.1 ≤ io.1 ∧ io.1 ≤ y.1
      constructor
      · have := headI_fst_le (x :: rest) hpw io hio
        simpa [List.headI] using this
      · exact le_getLast_fst (x :: rest) hpw io hio y hy
    · rw [hheadid, hlastid]
      unfold create_layer
      rw [if_neg (by omega)]
      have := filter_range_map_snd objs x.1 y.1 0
      simp only [Nat.sub_zero] at this
      rw [show objs.enum = objs.enumFrom 0 from rfl, this]

/-- C5 witness: the first layer of Scenario A's page (two TEXT
primitives with ids 0 and 1). -/
theorem c5_witness :
    ((group_by_z_index pageA).1.headI ∈ (group_by_z_index pageA).1)
    ∧ (group_by_z_index pageA).1.headI.2.objects ≠ []
    ∧ create_layer pageA (group_by_z_index pageA).1.headI.2.objects.headI.id
          (group_by_z_index pageA).1.headI.2.objects.getLastI.id
        = Except.ok ((pageA.enum.filter fun io =>
            decide ((group_by_z_index pageA).1.headI.2.objects.headI.id ≤ io.1)
              && decide (io.1 ≤ (group_by_z_index pageA).1.headI.2.objects.getLastI.id)).map
            Prod.snd) :=
  ⟨by with_unfolding_all decide,
    (c5_render_layer_range pageA _ (by with_unfolding_all decide)).1,
    (c5_render_layer_range pageA _ (by with_unfolding_all decide)).2.2⟩

/-- C8: when every render call succeeds, `render_pages` writes, for page N
(1-based, numbered consecutively from 1), `pages/pNNN/page.png` followed by
`pages/pNNN/lZZZ.png` for each layer with z-index Z of that page, pages in
order and the layers of each page in ascending z-index order (the layer
dictionary's keys are exactly 1..k in order). -/
theorem c8_output_layout (raws : List RawPage) (R : RenderOracle) (scale : ℚ)
    (h : ∀ j ∈ jobList (extract_pages raws), jobOk R scale j = true) :
    (render_pages R (extract_pages raws) scale).2 = none
    ∧ (render_pages R (extract_pages raws) scale).1
        = ((extract_pages raws).map fun pg =>
            ("pages/p" ++ pad3 pg.number ++ "/page.png")
              :: pg.layers.map fun zl =>
                  "pages/p" ++ pad3 pg.number ++ "/l" ++ pad3 zl.1 ++ ".png").flatten
    ∧ (extract_pages raws).map (fun pg => pg.number) = List.range' 1 raws.length
    ∧ ∀ pg ∈ extract_pages raws,
        pg.layers.map Prod.fst = List.range' 1 pg.layers.length := by
  have htake : (jobList (extract_pages raws)).takeWhile (jobOk R scale)
      = jobList (extract_pages raws) := List.takeWhile_eq_self_iff.mpr h
  have hdrop : (jobList (extract_pages raws)).dropWhile (jobOk R scale) = [] :=
    List.dropWhile_eq_nil_iff.mpr h
  have hr := runJobs_eq R scale (jobList (extract_pages raws))
  refine ⟨?_, ?_, ?_, ?_⟩
  · show (runJobs R scale (jobList (extract_pages raws))).2 = none
    rw [hr]
    simp [hdrop]
  · show (runJobs R scale (jobList (extract_pages raws))).1 = _
    rw [hr]
    simp only [htake]
    unfold jobList
    rw [List.map_flatten, List.map_map]
    congr 1
    apply List.map_congr_left
    intro pg _
    simp only [Function.comp, pageJobs, List.map_cons, List.map_map]
    rfl
  · unfold extract_pages
    rw [List.map_map]
    exact enum_map_fst_succ raws
  · intro pg hpg
    unfold extract_pages at hpg
    obtain ⟨ip, hip, hpge⟩ := List.mem_map.mp hpg
    subst hpge
    show (process_page (ip.1 + 1) ip.2).layers.map Prod.fst = _
    have hlay : (process_page (ip.1 + 1) ip.2).layers = (group_by_z_index ip.2.objects).1 := rfl
    rw [hlay]
    exact group_keys ip.2.objects

/-- C8 witness: one page with two TEXT primitives and one PATH primitive
rendered through an always-succeeding oracle. -/
theorem c8_witness :
    (∀ j ∈ jobList (extract_pages [mkRawPage pageA]), jobOk okOracle 1 j = true)
    ∧ (render_pages okOracle (extract_pages [mkRawPage pageA]) 1).2 = none
    ∧ (render_pages okOracle (extract_pages [mkRawPage pageA]) 1).1
        = ((extract_pages [mkRawPage pageA]).map fun pg =>
            ("pages/p" ++ pad3 pg.number ++ "/page.png")
              :: pg.layers.map fun zl =>
                  "pages/p" ++ pad3 pg.number ++ "/l" ++ pad3 zl.1 ++ ".png").flatten :=
  ⟨by with_unfolding_all decide,
    (c8_output_layout [mkRawPage pageA] okOracle 1 (by with_unfolding_all decide)).1,
    (c8_output_layout [mkRawPage pageA] okOracle 1 (by with_unfolding_all decide)).2.1⟩

/-- C9: `process_pdf` returns a fresh copy of the input document record in
which exactly `page_count`, `pages` and `info` are updated: every other
field — in particular the identity fields id, user_id (owner), name and
source — carries the input's value unchanged (the embedding of
`model_copy(update=...)` is a functional record update, so the input
record itself is untouched by construction). -/
theorem c9_process_pdf_frame (fe : Bool) (d : Document) (raws : List RawPage)
    (meta : List (String × String)) (R : RenderOracle) (d' : Document)
    (h : (process_pdf fe d raws meta R).2 = Except.ok d') :
    d'.id = d.id ∧ d'.user_id = d.user_id ∧ d'.name = d.name ∧ d'.source = d.source
      ∧ d'.source_url = d.source_url ∧ d'.status = d.status ∧ d'.uploaded = d.uploaded
      ∧ d'.page_count = (extract_pages raws).length ∧ d'.pages = extract_pages raws
      ∧ d'.info = meta := by
  unfold process_pdf at h
  by_cases hfe : fe = false
  · rw [if_pos hfe] at h
    simp at h
  · rw [if_neg hfe] at h
    simp only at h
    cases herr : (render_pages R (extract_pages raws) 1).2 with
    | some e =>
      rw [herr] at h
      simp at h
    | none =>
      rw [herr] at h
      simp only [Except.ok.injEq] at h
      subst h
      simp

/-- C9 witness: processing an empty page list updates exactly the three
fields and preserves the rest. -/
theorem c9_witness :
    (process_pdf true doc0 [] metaFixture okOracle).2 = Except.ok docResult
    ∧ (docResult.id = doc0.id ∧ docResult.user_id = doc0.user_id
        ∧ docResult.name = doc0.name ∧ docResult.source = doc0.source
        ∧ docResult.source_url = doc0.source_url ∧ docResult.status = doc0.status
        ∧ docResult.uploaded = doc0.uploaded
        ∧ docResult.page_count = (extract_pages []).length
        ∧ docResult.pages = extract_pages []
        ∧ docResult.info = metaFixture) :=
  ⟨rfl, c9_process_pdf_frame true doc0 [] metaFixture okOracle docResult rfl⟩

/-- C10: the z-index keys of the produced layers are exactly the
contiguous range 1..k (no gaps, since degenerate primitives never advance
the counter and the counter is only advanced immediately before a
primitive is placed at the new key), and every member primitive's recorded
z_index equals the key of the layer that owns it. -/
theorem c10_z_keys_contiguous (objs : List RawObject) :
    (group_by_z_index objs).1.map Prod.fst
        = List.range' 1 (group_by_z_index objs).1.length
    ∧ ∀ p ∈ (group_by_z_index objs).1,
        p.2.z_index = p.1 ∧ ∀ o ∈ p.2.objects, o.z_index = some p.1 := by
  refine ⟨group_keys objs, ?_⟩
  intro p hp
  obtain ⟨j, c, hjc, hpe⟩ := layers_mem objs p hp
  subst hpe
  refine ⟨rfl, ?_⟩
  intro o ho
  simp only [chunkLayer, chunkObjs] at ho
  obtain ⟨io, hio, hoe⟩ := List.mem_map.mp ho
  rw [← hoe]
  rfl

end PdfsApi

